import Mathlib

/-!
# Verification of the PDF coordinate-flow layout engine

A shallow embedding of the layout-reconstruction and numeric-tagging engine
of `src/app.py` (class `UniversalFinancialStreamer`), together with proofs of
the behavioural properties stated in the specification.

Modelling conventions:
* token text is a `List Char`; coordinates (`x0`, `top`) are rationals,
  standing for the real-valued coordinates of the source;
* Python's stable `sort` / `sorted` are modelled by `List.insertionSort`
  (stable, structurally recursive, hence executable in the kernel);
* `re.sub` over the pattern `[△▲-]?[0-9０-９,，.．]+%?` is modelled by a
  left-to-right scan (`matchAt` / `applyValueIdAux`) that finds the leftmost
  match, takes the maximal character-class run (greedy `+`), an optional
  leading sign and an optional trailing percent, exactly as the regex engine
  does on this pattern (no backtracking is observable for it);
* the two run counters `row_counter` / `val_counter` are threaded through
  the functions as explicit state; the identifier lists (`rowIds`, `valIds`,
  `payloads`, `pageNums`) record the values interpolated into the emitted
  f-strings, so that emission order can be stated.
-/

namespace PdfFlow

/-- One recognized text unit on a page: `w['text']`, `w['x0']`, `w['top']`. -/
structure Token where
  text : List Char
  x0 : ℚ
  top : ℚ
  deriving DecidableEq

/-- The sort key of `words.sort(key=lambda w: (w['top'], w['x0']))`:
lexicographic order on the pair `(top, x0)`. -/
def leTopX0 (a b : Token) : Prop :=
  a.top < b.top ∨ (a.top = b.top ∧ a.x0 ≤ b.x0)

instance : DecidableRel leTopX0 := fun a b => by
  unfold leTopX0; infer_instance

/-- The sort key of `sorted(current_row, key=lambda x: x['x0'])`. -/
def leX0 (a b : Token) : Prop := a.x0 ≤ b.x0

instance : DecidableRel leX0 := fun a b => by
  unfold leX0; infer_instance

instance : IsTotal Token leTopX0 := by
  constructor
  intro a b
  unfold leTopX0
  rcases lt_trichotomy a.top b.top with h | h | h
  · exact Or.inl (Or.inl h)
  · rcases le_total a.x0 b.x0 with h2 | h2
    · exact Or.inl (Or.inr ⟨h, h2⟩)
    · exact Or.inr (Or.inr ⟨h.symm, h2⟩)
  · exact Or.inr (Or.inl h)

instance : IsTrans Token leTopX0 := by
  constructor
  intro a b c hab hbc
  unfold leTopX0 at *
  rcases hab with h1 | ⟨h1, h1'⟩ <;> rcases hbc with h2 | ⟨h2, h2'⟩
  · exact Or.inl (h1.trans h2)
  · exact Or.inl (h2 ▸ h1)
  · exact Or.inl (h1 ▸ h2)
  · exact Or.inr ⟨h1.trans h2, h1'.trans h2'⟩

instance : IsTotal Token leX0 := by
  constructor; intro a b; exact le_total a.x0 b.x0

instance : IsTrans Token leX0 := by
  constructor; intro a b c h1 h2; exact le_trans h1 h2

/-- `words.sort(key=lambda w: (w['top'], w['x0']))` — Python's stable sort. -/
def sortByTopX0 (ws : List Token) : List Token := List.insertionSort leTopX0 ws

/-- `sorted(current_row, key=lambda x: x['x0'])` — Python's stable sort. -/
def sortByX0 (ws : List Token) : List Token := List.insertionSort leX0 ws

/-- The row-grouping loop of `_generate_page_stream` (src/app.py lines 41-50):
`current` is `current_row`, `lastY` is `last_y`.  Every closed row is sorted
by `x0` before being appended; the final `rows.append(current_row)` appends
the last accumulator unsorted. -/
def groupRowsAux (yTol : ℚ) : ℚ → List Token → List Token → List (List Token)
  | _, current, [] => [current]
  | lastY, current, w :: ws =>
    if |w.top - lastY| ≤ yTol then
      groupRowsAux yTol lastY (current ++ [w]) ws
    else
      sortByX0 current :: groupRowsAux yTol w.top [w] ws

/-- Row grouping of `_generate_page_stream` (src/app.py lines 38-50): sort by
`(top, x0)`, seed `last_y` with the first token's `top`, then run the loop
over all tokens (the first token is compared against its own `top`).
Python raises `IndexError` on an empty list (`words[0]`); the caller skips
empty pages, so the `[]` branch is unreachable in the pipeline. -/
def groupRows (yTol : ℚ) (words : List Token) : List (List Token) :=
  match sortByTopX0 words with
  | [] => []
  | w :: ws => groupRowsAux yTol w.top [] (w :: ws)

/-- The loop of `_cluster_coordinates` (src/app.py lines 124-126):
`last` is `clusters[-1]`; a coordinate `c` starts a new cluster iff
`c > clusters[-1] + self.x_tolerance`. -/
def clusterAux (xTol : ℚ) : ℚ → List ℚ → List ℚ
  | _, [] => []
  | last, c :: cs =>
    if last + xTol < c then c :: clusterAux xTol c cs
    else clusterAux xTol last cs

/-- `_cluster_coordinates` (src/app.py lines 120-127): sort ascending, seed
with the smallest value, keep only coordinates more than `x_tolerance` above
the last accepted baseline.  Empty input returns the empty list. -/
def clusterCoordinates (xTol : ℚ) (coords : List ℚ) : List ℚ :=
  match List.insertionSort (fun a b : ℚ => a ≤ b) coords with
  | [] => []
  | c :: cs => c :: clusterAux xTol c cs

/-- The loop of `_get_col_index` (src/app.py lines 130-132): `i` is the
`enumerate` index; the first baseline within `x_tolerance` of `x` wins and
`i + 1` is returned; the fallback returns `1`. -/
def getColIndexAux (xTol x : ℚ) : Nat → List ℚ → Nat
  | _, [] => 1
  | i, b :: bs =>
    if |x - b| ≤ xTol then i + 1
    else getColIndexAux xTol x (i + 1) bs

/-- `_get_col_index` (src/app.py lines 129-133). -/
def getColIndex (xTol x : ℚ) (baselines : List ℚ) : Nat :=
  getColIndexAux xTol x 0 baselines

/-- The character class `[△▲-]` of the leading-sign part of `num_pattern`
(src/app.py line 100). -/
def isSignChar (c : Char) : Bool :=
  c == '△' || c == '▲' || c == '-'

/-- The character class `[0-9０-９,，.．]` of `num_pattern`
(src/app.py line 100): ASCII digits, fullwidth digits, ASCII and fullwidth
comma, ASCII and fullwidth period. -/
def isNumChar (c : Char) : Bool :=
  (0x30 ≤ c.toNat && c.toNat ≤ 0x39) || (0xFF10 ≤ c.toNat && c.toNat ≤ 0xFF19) ||
    c == ',' || c == '，' || c == '.' || c == '．'

/-- The character class `[0-9０-９]` of `_mask_text` (src/app.py line 90). -/
def isDigitChar (c : Char) : Bool :=
  (0x30 ≤ c.toNat && c.toNat ≤ 0x39) || (0xFF10 ≤ c.toNat && c.toNat ≤ 0xFF19)

/-- `_mask_text` (src/app.py lines 87-91): replace every (halfwidth or
fullwidth) digit with `'x'`, keep everything else. -/
def maskText (s : List Char) : List Char :=
  s.map fun c => if isDigitChar c then 'x' else c

/-- `raw_num.replace(',', '').replace('，', '')` (src/app.py line 108). -/
def stripCommas (s : List Char) : List Char :=
  s.filter fun c => !(c == ',' || c == '，')

/-- `_normalize_text` (src/app.py lines 137-138): strips ASCII commas only.
It is dead code: nothing in the pipeline calls it. -/
def normalizeText (s : List Char) : List Char :=
  s.filter fun c => !(c == ',')

/-- A match of `num_pattern = r'[△▲-]?[0-9０-９,，.．]+%?'` anchored at the
head of `s`: `some (m, rest)` when the pattern matches the prefix `m`
(greedy: maximal digit-class run, optional leading sign, optional trailing
percent), `none` when no match starts at the head. -/
def matchAt : List Char → Option (List Char × List Char)
  | [] => none
  | c :: cs =>
    if isNumChar c then
      let run := List.takeWhile isNumChar (c :: cs)
      let rest := List.dropWhile isNumChar (c :: cs)
      if rest.head? = some '%' then some (run ++ ['%'], rest.tail)
      else some (run, rest)
    else if isSignChar c then
      match cs with
      | [] => none
      | d :: _ =>
        if isNumChar d then
          let run := List.takeWhile isNumChar cs
          let rest := List.dropWhile isNumChar cs
          if rest.head? = some '%' then some (c :: (run ++ ['%']), rest.tail)
          else some (c :: run, rest)
        else none
    else none

/-- Result of `_apply_value_id` on one token text: the rewritten text
(`out`), the final value counter (`ctr`), and — recording the f-string
interpolations — the emitted identifiers (`ids`) and the comma-stripped
payloads `val_for_ai` before masking (`payloads`). -/
structure TagResult where
  out : List Char
  ctr : Nat
  ids : List Nat
  payloads : List (List Char)
  deriving DecidableEq

/-- Decimal digits of a natural number, as characters. -/
def natChars (n : Nat) : List Char := (Nat.repr n).data

/-- Python's `{:03d}` on a non-negative counter: zero-pad to width 3. -/
def pad3 (n : Nat) : List Char :=
  List.replicate (3 - (natChars n).length) '0' ++ natChars n

/-- Python's `{:03d}` on an integer: the sign counts toward the width. -/
def fmtInt3 (n : ℤ) : List Char :=
  if n < 0 then
    '-' :: (List.replicate (2 - (natChars n.natAbs).length) '0' ++ natChars n.natAbs)
  else pad3 n.natAbs

/-- The marker `f"<{v_id}:{...}>"` with `v_id = f"v_{counter:03d}"`
(src/app.py lines 105, 113, 115). -/
def valueMarker (id : Nat) (payload : List Char) : List Char :=
  '<' :: 'v' :: '_' :: (pad3 id ++ ':' :: (payload ++ ['>']))

theorem length_takeWhile_add_dropWhile (p : Char → Bool) (l : List Char) :
    (l.takeWhile p).length + (l.dropWhile p).length = l.length := by
  rw [← List.length_append, List.takeWhile_append_dropWhile]

theorem matchAt_rest_length {s : List Char} {m rest : List Char}
    (h : matchAt s = some (m, rest)) : rest.length < s.length := by
  match s with
  | [] => simp [matchAt] at h
  | c :: cs =>
    rw [matchAt.eq_def] at h
    simp only at h
    split at h
    · -- leading character is in the numeric class
      have hlen := length_takeWhile_add_dropWhile isNumChar (c :: cs)
      have htw : 1 ≤ (List.takeWhile isNumChar (c :: cs)).length := by
        rw [List.takeWhile_cons_of_pos (by assumption)]; simp
      have htl : (List.dropWhile isNumChar (c :: cs)).tail.length ≤
          (List.dropWhile isNumChar (c :: cs)).length := by
        rw [List.length_tail]; omega
      split at h <;>
        (simp only [Option.some.injEq, Prod.mk.injEq] at h
         obtain ⟨-, h2⟩ := h
         subst h2
         simp only [List.length_cons] at hlen ⊢
         omega)
    · split at h
      · -- leading sign character
        split at h
        · exact absurd h (by simp)
        · rename_i d tail
          split at h
          · have hlen := length_takeWhile_add_dropWhile isNumChar (d :: tail)
            have htw : 1 ≤ (List.takeWhile isNumChar (d :: tail)).length := by
              rw [List.takeWhile_cons_of_pos (by assumption)]; simp
            have htl : (List.dropWhile isNumChar (d :: tail)).tail.length ≤
                (List.dropWhile isNumChar (d :: tail)).length := by
              rw [List.length_tail]; omega
            split at h <;>
              (simp only [Option.some.injEq, Prod.mk.injEq] at h
               obtain ⟨-, h2⟩ := h
               subst h2
               simp only [List.length_cons] at hlen ⊢
               omega)
          · exact absurd h (by simp)
      · exact absurd h (by simp)

/-- The `re.sub(num_pattern, replace_match, text)` scan of `_apply_value_id`
(src/app.py lines 100-118): walk the text left to right; at the leftmost
position where `num_pattern` matches, bump the counter, strip commas from the
match, render the payload (masked when `mask` is set, i.e. `mask_numbers`),
emit the `<v_NNN:payload>` marker, and continue after the match; characters
outside matches are copied verbatim. -/
def applyValueIdAux (mask : Bool) : List Char → Nat → TagResult
  | [], ctr => ⟨[], ctr, [], []⟩
  | c :: cs, ctr =>
    match h : matchAt (c :: cs) with
    | some (m, rest) =>
      let payload := stripCommas m
      let r := applyValueIdAux mask rest (ctr + 1)
      ⟨valueMarker (ctr + 1) (if mask then maskText payload else payload) ++ r.out,
       r.ctr, (ctr + 1) :: r.ids, payload :: r.payloads⟩
    | none =>
      let r := applyValueIdAux mask cs ctr
      ⟨c :: r.out, r.ctr, r.ids, r.payloads⟩
termination_by s _ => s.length
decreasing_by
  · exact matchAt_rest_length h
  · simp

/-- `_apply_value_id` (src/app.py lines 93-118), with the value counter
passed in and returned explicitly. -/
def applyValueId (mask : Bool) (text : List Char) (ctr : Nat) : TagResult :=
  applyValueIdAux mask text ctr

/-- Python's `int()` on a rational: truncation toward zero. -/
def truncQ (q : ℚ) : ℤ := if 0 ≤ q then ⌊q⌋ else ⌈q⌉

/-- Result of serializing the tokens of one row (the inner loop of
`_generate_page_stream`, src/app.py lines 66-75). -/
structure TokensResult where
  out : List Char
  valCtr : Nat
  valIds : List Nat
  deriving DecidableEq

/-- The inner token loop of `_generate_page_stream` (src/app.py lines 66-75):
for each token emit `<col:{col_idx}, x:{int(w['x0']):03d}> {tagged_text} `
and thread the value counter through `_apply_value_id`. -/
def processRowTokens (xTol : ℚ) (mask : Bool) (baselines : List ℚ)
    (valCtr : Nat) : List Token → TokensResult
  | [] => ⟨[], valCtr, []⟩
  | w :: ws =>
    let colIdx := getColIndex xTol w.x0 baselines
    let tag := applyValueId mask w.text valCtr
    let rest := processRowTokens xTol mask baselines tag.ctr ws
    ⟨"<col:".data ++ natChars colIdx ++ ", x:".data ++ fmtInt3 (truncQ w.x0) ++
       "> ".data ++ tag.out ++ " ".data ++ rest.out,
     rest.valCtr, tag.ids ++ rest.valIds⟩

/-- Result of serializing a page's rows (src/app.py lines 57-76). -/
structure RowsResult where
  lines : List (List Char)
  rowCtr : Nat
  valCtr : Nat
  rowIds : List Nat
  valIds : List Nat
  deriving DecidableEq

/-- The row loop of `_generate_page_stream` (src/app.py lines 58-76):
empty rows are skipped (`if not row: continue`); for each remaining row the
row counter is bumped, the prefix `[r_{row_counter:03d}]<x:{base_x:03d}> `
is emitted with `base_x = int(row[0]['x0'])`, then the token fragments. -/
def processRows (xTol : ℚ) (mask : Bool) (baselines : List ℚ) :
    Nat → Nat → List (List Token) → RowsResult
  | rowCtr, valCtr, [] => ⟨[], rowCtr, valCtr, [], []⟩
  | rowCtr, valCtr, [] :: rest => processRows xTol mask baselines rowCtr valCtr rest
  | rowCtr, valCtr, (w0 :: ws) :: rest =>
    let tok := processRowTokens xTol mask baselines valCtr (w0 :: ws)
    let line := "[r_".data ++ pad3 (rowCtr + 1) ++ "]<x:".data ++
      fmtInt3 (truncQ w0.x0) ++ "> ".data ++ tok.out
    let r := processRows xTol mask baselines (rowCtr + 1) tok.valCtr rest
    ⟨line :: r.lines, r.rowCtr, r.valCtr, (rowCtr + 1) :: r.rowIds,
     tok.valIds ++ r.valIds⟩

/-- Result of `_generate_page_stream` for one page, with the counters and
the emitted identifiers exposed. -/
structure StreamResult where
  stream : List Char
  baselines : List ℚ
  rowCtr : Nat
  valCtr : Nat
  rowIds : List Nat
  valIds : List Nat
  deriving DecidableEq

/-- `_generate_page_stream` (src/app.py lines 36-78): group rows, collect
`all_x_starts = [w['x0'] for row in rows for w in row]`, cluster them into
column baselines, serialize the rows, join the lines with newlines. -/
def generatePageStream (xTol yTol : ℚ) (mask : Bool) (words : List Token)
    (rowCtr valCtr : Nat) : StreamResult :=
  let rows := groupRows yTol words
  let allXStarts := rows.flatten.map Token.x0
  let baselines := clusterCoordinates xTol allXStarts
  let r := processRows xTol mask baselines rowCtr valCtr rows
  ⟨List.intercalate ['\n'] r.lines, baselines, r.rowCtr, r.valCtr, r.rowIds, r.valIds⟩

/-- Result of a document run, with the emitted page headers' page numbers
and the emitted identifiers exposed. -/
structure RunResult where
  blocks : List (List Char)
  pageNums : List Nat
  rowIds : List Nat
  valIds : List Nat
  rowCtr : Nat
  valCtr : Nat
  deriving DecidableEq

/-- The page loop of `process_pdf` (src/app.py lines 20-33): `i` is the
`enumerate` index; a page whose extracted word list is empty is skipped
(`if not words: continue`); otherwise the page stream is generated and the
block `f"{header}\n{page_stream}"` with
`header = f"=== PAGE {i+1} [Detected {len(baselines)} Columns] ==="`
is appended. -/
def processPages (xTol yTol : ℚ) (mask : Bool) :
    Nat → Nat → Nat → List (List Token) → RunResult
  | _, rowCtr, valCtr, [] => ⟨[], [], [], [], rowCtr, valCtr⟩
  | i, rowCtr, valCtr, [] :: rest => processPages xTol yTol mask (i + 1) rowCtr valCtr rest
  | i, rowCtr, valCtr, (w :: ws) :: rest =>
    let s := generatePageStream xTol yTol mask (w :: ws) rowCtr valCtr
    let header := "=== PAGE ".data ++ natChars (i + 1) ++ " [Detected ".data ++
      natChars s.baselines.length ++ " Columns] ===".data
    let block := header ++ '\n' :: s.stream
    let r := processPages xTol yTol mask (i + 1) s.rowCtr s.valCtr rest
    ⟨block :: r.blocks, (i + 1) :: r.pageNums, s.rowIds ++ r.rowIds,
     s.valIds ++ r.valIds, r.rowCtr, r.valCtr⟩

/-- `process_pdf` (src/app.py lines 15-34): both counters are reset to zero
at the start of the run (whatever their previous values `rowCtr0`, `valCtr0`
were), then the pages are processed in order. -/
def processPdf (xTol yTol : ℚ) (mask : Bool) (rowCtr0 valCtr0 : Nat)
    (pages : List (List Token)) : RunResult :=
  processPages xTol yTol mask 0 0 0 pages

/-- The return value of `process_pdf`: `"\n\n".join(full_output)`. -/
def processPdfOutput (xTol yTol : ℚ) (mask : Bool) (rowCtr0 valCtr0 : Nat)
    (pages : List (List Token)) : List Char :=
  List.intercalate ('\n' :: ['\n']) (processPdf xTol yTol mask rowCtr0 valCtr0 pages).blocks

/-! ## Helper lemmas -/

/-- Unfolding of one scan step, with the match on `matchAt` made
non-dependent so that concrete instances rewrite cleanly. -/
theorem applyValueIdAux_cons (mask : Bool) (c : Char) (cs : List Char) (ctr : Nat) :
    applyValueIdAux mask (c :: cs) ctr =
      match matchAt (c :: cs) with
      | some (m, rest) =>
        let payload := stripCommas m
        let r := applyValueIdAux mask rest (ctr + 1)
        ⟨valueMarker (ctr + 1) (if mask then maskText payload else payload) ++ r.out,
         r.ctr, (ctr + 1) :: r.ids, payload :: r.payloads⟩
      | none =>
        let r := applyValueIdAux mask cs ctr
        ⟨c :: r.out, r.ctr, r.ids, r.payloads⟩ := by
  rw [applyValueIdAux]
  rcases h : matchAt (c :: cs) with - | ⟨m, rest⟩ <;> simp only [h]

/-- The scan's branching, counter, identifiers and recorded payloads do not
depend on the masking flag: only the rendered text differs.  Stated against
`mask = false` for any `mask`. -/
theorem applyValueIdAux_mask_inv :
    ∀ (n : Nat) (s : List Char), s.length ≤ n → ∀ (ctr : Nat) (mask : Bool),
      (applyValueIdAux mask s ctr).ctr = (applyValueIdAux false s ctr).ctr ∧
      (applyValueIdAux mask s ctr).ids = (applyValueIdAux false s ctr).ids ∧
      (applyValueIdAux mask s ctr).payloads = (applyValueIdAux false s ctr).payloads := by
  intro n
  induction n with
  | zero =>
    intro s hs ctr mask
    have : s = [] := List.length_eq_zero.mp (Nat.le_zero.mp hs)
    subst this
    simp [applyValueIdAux]
  | succ n ih =>
    intro s hs ctr mask
    match s with
    | [] => simp [applyValueIdAux]
    | c :: cs =>
      rw [applyValueIdAux_cons, applyValueIdAux_cons]
      cases h : matchAt (c :: cs) with
      | none =>
        have hcs : cs.length ≤ n := by
          simp only [List.length_cons] at hs; omega
        dsimp only
        exact ih cs hcs ctr mask
      | some p =>
        rcases p with ⟨m, rest⟩
        have hlt := matchAt_rest_length h
        have hr : rest.length ≤ n := by
          simp only [List.length_cons] at hlt hs; omega
        obtain ⟨h1, h2, h3⟩ := ih rest hr (ctr + 1) mask
        dsimp only
        exact ⟨h1, by rw [h2], by rw [h3]⟩

/-- The identifiers emitted by one scan are the consecutive block starting
right after the incoming counter, and the counter advances by their count. -/
theorem applyValueIdAux_ids :
    ∀ (n : Nat) (s : List Char), s.length ≤ n → ∀ (ctr : Nat) (mask : Bool),
      (applyValueIdAux mask s ctr).ids =
        List.range' (ctr + 1) (applyValueIdAux mask s ctr).ids.length ∧
      (applyValueIdAux mask s ctr).ctr = ctr + (applyValueIdAux mask s ctr).ids.length := by
  intro n
  induction n with
  | zero =>
    intro s hs ctr mask
    have : s = [] := List.length_eq_zero.mp (Nat.le_zero.mp hs)
    subst this
    simp [applyValueIdAux]
  | succ n ih =>
    intro s hs ctr mask
    match s with
    | [] => simp [applyValueIdAux]
    | c :: cs =>
      rw [applyValueIdAux_cons]
      cases h : matchAt (c :: cs) with
      | none =>
        have hcs : cs.length ≤ n := by
          simp only [List.length_cons] at hs; omega
        dsimp only
        exact ih cs hcs ctr mask
      | some p =>
        rcases p with ⟨m, rest⟩
        have hlt := matchAt_rest_length h
        have hr : rest.length ≤ n := by
          simp only [List.length_cons] at hlt hs; omega
        obtain ⟨h1, h2⟩ := ih rest hr (ctr + 1) mask
        dsimp only
        constructor
        · simp only [List.length_cons]
          rw [List.range'_succ]
          exact congrArg _ h1
        · simp only [List.length_cons]
          omega

theorem sortByX0_perm (l : List Token) : (sortByX0 l).Perm l :=
  List.perm_insertionSort leX0 l

theorem sortByX0_pairwise (l : List Token) : (sortByX0 l).Pairwise leX0 :=
  List.sorted_insertionSort leX0 l

theorem sortByTopX0_perm (l : List Token) : (sortByTopX0 l).Perm l :=
  List.perm_insertionSort leTopX0 l

theorem sortByTopX0_pairwise (l : List Token) : (sortByTopX0 l).Pairwise leTopX0 :=
  List.sorted_insertionSort leTopX0 l

theorem leTopX0_top_le {a b : Token} (h : leTopX0 a b) : a.top ≤ b.top := by
  rcases h with h | ⟨h, -⟩
  · exact le_of_lt h
  · exact le_of_eq h

theorem groupRowsAux_ne_nil (yTol : ℚ) :
    ∀ (ws : List Token) (lastY : ℚ) (cur : List Token),
      groupRowsAux yTol lastY cur ws ≠ [] := by
  intro ws
  induction ws with
  | nil => intro lastY cur; simp [groupRowsAux]
  | cons w ws ih =>
    intro lastY cur
    rw [groupRowsAux]
    split
    · exact ih lastY (cur ++ [w])
    · simp

/-- The rows produced by the grouping loop are, taken together, a
permutation of the accumulator followed by the remaining input. -/
theorem groupRowsAux_flatten_perm (yTol : ℚ) :
    ∀ (ws : List Token) (lastY : ℚ) (cur : List Token),
      (groupRowsAux yTol lastY cur ws).flatten.Perm (cur ++ ws) := by
  intro ws
  induction ws with
  | nil =>
    intro lastY cur
    simp [groupRowsAux]
  | cons w ws ih =>
    intro lastY cur
    rw [groupRowsAux]
    split
    · have h := ih lastY (cur ++ [w])
      have he : (cur ++ [w]) ++ ws = cur ++ (w :: ws) := by simp
      rw [he] at h
      exact h
    · have h1 : (sortByX0 cur :: groupRowsAux yTol w.top [w] ws).flatten
          = sortByX0 cur ++ (groupRowsAux yTol w.top [w] ws).flatten := by
        simp [List.flatten_cons]
      rw [h1]
      have h2 := (sortByX0_perm cur).append (ih w.top [w])
      exact h2

/-- Every produced row except the last one has been passed through
`sorted(current_row, key=lambda x: x['x0'])`, hence is `x0`-sorted. -/
theorem groupRowsAux_dropLast_sorted (yTol : ℚ) :
    ∀ (ws : List Token) (lastY : ℚ) (cur : List Token),
      ∀ row ∈ (groupRowsAux yTol lastY cur ws).dropLast, row.Pairwise leX0 := by
  intro ws
  induction ws with
  | nil =>
    intro lastY cur row hrow
    simp [groupRowsAux] at hrow
  | cons w ws ih =>
    intro lastY cur row hrow
    rw [groupRowsAux] at hrow
    split at hrow
    · exact ih lastY (cur ++ [w]) row hrow
    · rw [List.dropLast_cons_of_ne_nil (groupRowsAux_ne_nil yTol ws w.top [w])] at hrow
      rcases List.mem_cons.mp hrow with h | h
      · subst h; exact sortByX0_pairwise cur
      · exact ih w.top [w] row h

/-- Every row the grouping loop emits lies inside a vertical band of width
`yTol`: all members' `top`s sit in `[ref, ref + yTol]` for the `last_y`
reference active when the row was closed. -/
theorem groupRowsAux_interval (yTol : ℚ) (hy : 0 ≤ yTol) :
    ∀ (ws : List Token) (lastY : ℚ) (cur : List Token),
      (∀ w ∈ cur, lastY ≤ w.top ∧ w.top ≤ lastY + yTol) →
      ws.Pairwise (fun a b => a.top ≤ b.top) →
      (∀ w ∈ ws, lastY ≤ w.top) →
      ∀ row ∈ groupRowsAux yTol lastY cur ws, ∃ ref : ℚ,
        ∀ w ∈ row, ref ≤ w.top ∧ w.top ≤ ref + yTol := by
  intro ws
  induction ws with
  | nil =>
    intro lastY cur hcur _ _ row hrow
    simp only [groupRowsAux, List.mem_singleton] at hrow
    subst hrow
    exact ⟨lastY, hcur⟩
  | cons w ws ih =>
    intro lastY cur hcur hpw hge row hrow
    rw [groupRowsAux] at hrow
    have hpw' := (List.pairwise_cons.mp hpw).2
    have hwrel := (List.pairwise_cons.mp hpw).1
    split at hrow
    · rename_i hacc
      have hwtop : lastY ≤ w.top ∧ w.top ≤ lastY + yTol := by
        have := abs_le.mp hacc
        constructor
        · exact hge w (List.mem_cons_self w ws)
        · linarith [this.2]
      refine ih lastY (cur ++ [w]) ?_ hpw' ?_ row hrow
      · intro v hv
        rcases List.mem_append.mp hv with h | h
        · exact hcur v h
        · rw [List.mem_singleton] at h; subst h; exact hwtop
      · intro v hv
        exact hge v (List.mem_cons_of_mem w hv)
    · rcases List.mem_cons.mp hrow with h | h
      · subst h
        refine ⟨lastY, ?_⟩
        intro v hv
        exact hcur v ((sortByX0_perm cur).mem_iff.mp hv)
      · refine ih w.top [w] ?_ hpw' ?_ row h
        · intro v hv
          rw [List.mem_singleton] at hv; subst hv
          exact ⟨le_refl _, by linarith⟩
        · intro v hv
          exact hwrel v hv

/-- Every row of `groupRows` lies inside a vertical band of width `yTol`. -/
theorem groupRows_row_interval (yTol : ℚ) (hy : 0 ≤ yTol) (words : List Token) :
    ∀ row ∈ groupRows yTol words, ∃ ref : ℚ,
      ∀ w ∈ row, ref ≤ w.top ∧ w.top ≤ ref + yTol := by
  intro row hrow
  rw [groupRows] at hrow
  match hs : sortByTopX0 words with
  | [] => rw [hs] at hrow; simp at hrow
  | w :: ws =>
    rw [hs] at hrow
    have hpw : (w :: ws).Pairwise (fun a b : Token => a.top ≤ b.top) := by
      have := sortByTopX0_pairwise words
      rw [hs] at this
      exact this.imp leTopX0_top_le
    refine groupRowsAux_interval yTol hy (w :: ws) w.top [] (by simp) hpw ?_ row hrow
    intro v hv
    rcases List.mem_cons.mp hv with h | h
    · subst h; exact le_refl _
    · exact (List.pairwise_cons.mp hpw).1 v h

/-- Any two tokens of one produced row have `top`s within `yTol` of each
other; in particular every member is within `yTol` of the row's first
member. -/
theorem groupRows_top_close (yTol : ℚ) (hy : 0 ≤ yTol) (words : List Token)
    (row : List Token) (hrow : row ∈ groupRows yTol words)
    (v w : Token) (hv : v ∈ row) (hw : w ∈ row) : |v.top - w.top| ≤ yTol := by
  obtain ⟨ref, href⟩ := groupRows_row_interval yTol hy words row hrow
  obtain ⟨h1, h2⟩ := href v hv
  obtain ⟨h3, h4⟩ := href w hw
  rw [abs_sub_le_iff]
  constructor <;> linarith

/-- Each kept baseline exceeds its predecessor by more than `xTol`. -/
theorem clusterAux_chain (xTol : ℚ) :
    ∀ (cs : List ℚ) (last : ℚ),
      List.Chain' (fun a b => a + xTol < b) (last :: clusterAux xTol last cs) := by
  intro cs
  induction cs with
  | nil => intro last; simp [clusterAux]
  | cons c cs ih =>
    intro last
    rw [clusterAux]
    split
    · rename_i hlt
      exact List.Chain'.cons hlt (ih c)
    · exact ih last

theorem clusterAux_subset (xTol : ℚ) :
    ∀ (cs : List ℚ) (last : ℚ), ∀ b ∈ clusterAux xTol last cs, b ∈ cs := by
  intro cs
  induction cs with
  | nil => intro last b hb; simp [clusterAux] at hb
  | cons c cs ih =>
    intro last b hb
    rw [clusterAux] at hb
    split at hb
    · rcases List.mem_cons.mp hb with h | h
      · subst h; exact List.mem_cons_self b cs
      · exact List.mem_cons_of_mem c (ih c b h)
    · exact List.mem_cons_of_mem c (ih last b hb)

theorem clusterAux_const (xTol : ℚ) (hx : 0 ≤ xTol) (a : ℚ) :
    ∀ cs : List ℚ, (∀ c ∈ cs, c = a) → clusterAux xTol a cs = [] := by
  intro cs
  induction cs with
  | nil => intro _; simp [clusterAux]
  | cons c cs ih =>
    intro hall
    have hc : c = a := hall c (List.mem_cons_self c cs)
    subst hc
    rw [clusterAux, if_neg (by linarith)]
    exact ih fun d hd => hall d (List.mem_cons_of_mem c hd)

/-- Every coordinate of a sorted tail is within `xTol` of some member of the
baseline list seeded by `last`, provided all of them are at least `last`. -/
theorem clusterAux_covers (xTol : ℚ) (hx : 0 ≤ xTol) :
    ∀ (cs : List ℚ) (last : ℚ),
      (∀ c ∈ cs, last ≤ c) → cs.Pairwise (fun a b : ℚ => a ≤ b) →
      ∀ x ∈ cs, ∃ b ∈ last :: clusterAux xTol last cs, |x - b| ≤ xTol := by
  intro cs
  induction cs with
  | nil => intro last _ _ x hx; simp at hx
  | cons c cs ih =>
    intro last hge hpw x hmem
    have hpw' := (List.pairwise_cons.mp hpw).2
    have hcrel := (List.pairwise_cons.mp hpw).1
    rw [clusterAux]
    split
    · rename_i hnew
      rcases List.mem_cons.mp hmem with h | h
      · refine ⟨c, List.mem_cons_of_mem last (List.mem_cons_self c _), ?_⟩
        rw [h]
        simp [hx]
      · obtain ⟨b, hb, hcl⟩ := ih c (fun d hd => hcrel d hd) hpw' x h
        exact ⟨b, List.mem_cons_of_mem last hb, hcl⟩
    · rename_i habs
      push_neg at habs
      rcases List.mem_cons.mp hmem with h | h
      · subst h
        refine ⟨last, List.mem_cons_self last _, ?_⟩
        have h1 : last ≤ x := hge x (List.mem_cons_self x cs)
        rw [abs_le]
        constructor <;> linarith
      · obtain ⟨b, hb, hcl⟩ := ih last (fun d hd => hge d (List.mem_cons_of_mem c hd))
          hpw' x h
        exact ⟨b, hb, hcl⟩

theorem sortQ_perm (l : List ℚ) :
    (List.insertionSort (fun a b : ℚ => a ≤ b) l).Perm l :=
  List.perm_insertionSort _ l

theorem sortQ_pairwise (l : List ℚ) :
    (List.insertionSort (fun a b : ℚ => a ≤ b) l).Pairwise (fun a b : ℚ => a ≤ b) :=
  List.sorted_insertionSort _ l

/-- Adjacent baselines of `_cluster_coordinates` differ by more than
`xTol`. -/
theorem clusterCoordinates_chain (xTol : ℚ) (coords : List ℚ) :
    List.Chain' (fun a b => a + xTol < b) (clusterCoordinates xTol coords) := by
  rw [clusterCoordinates]
  match List.insertionSort (fun a b : ℚ => a ≤ b) coords with
  | [] => exact List.chain'_nil
  | c :: cs => exact clusterAux_chain xTol cs c

/-- The baselines are strictly increasing (for a non-negative tolerance). -/
theorem clusterCoordinates_pairwise_lt (xTol : ℚ) (hx : 0 ≤ xTol) (coords : List ℚ) :
    (clusterCoordinates xTol coords).Pairwise (fun a b : ℚ => a < b) := by
  have h := clusterCoordinates_chain xTol coords
  have h2 : List.Chain' (fun a b : ℚ => a < b) (clusterCoordinates xTol coords) :=
    List.Chain'.imp (fun a b hab => by linarith) h
  exact List.chain'_iff_pairwise.mp h2

theorem clusterCoordinates_subset (xTol : ℚ) (coords : List ℚ) :
    ∀ b ∈ clusterCoordinates xTol coords, b ∈ coords := by
  intro b hb
  rw [clusterCoordinates] at hb
  match hs : List.insertionSort (fun a b : ℚ => a ≤ b) coords with
  | [] => rw [hs] at hb; simp at hb
  | c :: cs =>
    rw [hs] at hb
    have hperm := sortQ_perm coords
    rw [hs] at hperm
    rcases List.mem_cons.mp hb with h | h
    · subst h; exact hperm.mem_iff.mp (List.mem_cons_self b cs)
    · exact hperm.mem_iff.mp (List.mem_cons_of_mem c (clusterAux_subset xTol cs c b h))

/-- Every input coordinate is within `xTol` of some produced baseline. -/
theorem clusterCoordinates_covers (xTol : ℚ) (hx : 0 ≤ xTol) (coords : List ℚ) :
    ∀ x ∈ coords, ∃ b ∈ clusterCoordinates xTol coords, |x - b| ≤ xTol := by
  intro x hmem
  rw [clusterCoordinates]
  have hperm := sortQ_perm coords
  have hpw := sortQ_pairwise coords
  match hs : List.insertionSort (fun a b : ℚ => a ≤ b) coords with
  | [] =>
    rw [hs] at hperm
    exact absurd (hperm.symm.mem_iff.mp hmem) (by simp)
  | c :: cs =>
    rw [hs] at hperm hpw
    show ∃ b ∈ c :: clusterAux xTol c cs, |x - b| ≤ xTol
    have hmem' : x ∈ c :: cs := hperm.symm.mem_iff.mp hmem
    have hpw' := (List.pairwise_cons.mp hpw).2
    have hcrel := (List.pairwise_cons.mp hpw).1
    rcases List.mem_cons.mp hmem' with h | h
    · refine ⟨c, List.mem_cons_self c _, ?_⟩
      rw [h]
      simp [hx]
    · exact clusterAux_covers xTol hx cs c hcrel hpw' x h

/-- `_get_col_index` when no baseline qualifies: the fallback `return 1`. -/
theorem getColIndexAux_no_match (xTol x : ℚ) :
    ∀ (bs : List ℚ) (i : Nat), (∀ b ∈ bs, xTol < |x - b|) →
      getColIndexAux xTol x i bs = 1 := by
  intro bs
  induction bs with
  | nil => intro i _; rfl
  | cons b bs ih =>
    intro i hall
    rw [getColIndexAux]
    rw [if_neg (not_le.mpr (hall b (List.mem_cons_self b bs)))]
    exact ih (i + 1) fun d hd => hall d (List.mem_cons_of_mem b hd)

/-- `_get_col_index` returns the 1-based index of the first qualifying
baseline. -/
theorem getColIndexAux_first (xTol x : ℚ) :
    ∀ (bs : List ℚ) (k : Nat) (hk : k < bs.length) (i : Nat),
      |x - bs.get ⟨k, hk⟩| ≤ xTol →
      (∀ j (hj : j < bs.length), j < k → xTol < |x - bs.get ⟨j, hj⟩|) →
      getColIndexAux xTol x i bs = i + k + 1 := by
  intro bs
  induction bs with
  | nil => intro k hk; simp at hk
  | cons b bs ih =>
    intro k hk i hget hbefore
    match k with
    | 0 =>
      have hb0 : |x - b| ≤ xTol := by simpa using hget
      rw [getColIndexAux, if_pos hb0]
    | k + 1 =>
      have hb : xTol < |x - b| := by
        have := hbefore 0 (by simp) (Nat.succ_pos k)
        simpa using this
      rw [getColIndexAux, if_neg (not_le.mpr hb)]
      have hk' : k < bs.length := by simpa using hk
      have hget' : |x - bs.get ⟨k, hk'⟩| ≤ xTol := by
        simpa using hget
      have h := ih k hk' (i + 1) hget' ?_
      · rw [h]; omega
      · intro j hj hjk
        have := hbefore (j + 1) (by simpa using Nat.succ_lt_succ hj) (Nat.succ_lt_succ hjk)
        simpa using this

/-- If some baseline qualifies, the loop returns through a qualifying
baseline (never through the fallback). -/
theorem getColIndexAux_finds (xTol x : ℚ) :
    ∀ (bs : List ℚ) (i : Nat), (∃ b ∈ bs, |x - b| ≤ xTol) →
      ∃ k, ∃ hk : k < bs.length,
        getColIndexAux xTol x i bs = i + k + 1 ∧ |x - bs.get ⟨k, hk⟩| ≤ xTol := by
  intro bs
  induction bs with
  | nil => intro i h; simp at h
  | cons b bs ih =>
    intro i hex
    by_cases hb : |x - b| ≤ xTol
    · refine ⟨0, by simp, ?_, by simpa⟩
      rw [getColIndexAux, if_pos hb]
    · obtain ⟨b', hb', hcl⟩ := hex
      rcases List.mem_cons.mp hb' with h | h
      · subst h; exact absurd hcl hb
      · obtain ⟨k, hk, heq, hget⟩ := ih (i + 1) ⟨b', h, hcl⟩
        refine ⟨k + 1, by simpa using Nat.succ_lt_succ hk, ?_, by simpa using hget⟩
        rw [getColIndexAux, if_neg hb, heq]
        omega

theorem getColIndexAux_bounds (xTol x : ℚ) :
    ∀ (bs : List ℚ) (i : Nat),
      getColIndexAux xTol x i bs = 1 ∨
      (i + 1 ≤ getColIndexAux xTol x i bs ∧ getColIndexAux xTol x i bs ≤ i + bs.length) := by
  intro bs
  induction bs with
  | nil => intro i; exact Or.inl rfl
  | cons b bs ih =>
    intro i
    rw [getColIndexAux]
    split
    · right; constructor <;> simp
    · rcases ih (i + 1) with h | ⟨h1, h2⟩
      · exact Or.inl h
      · right
        refine ⟨by omega, ?_⟩
        simp only [List.length_cons]
        omega

theorem range'_pairwise_lt : ∀ (n s : Nat), (List.range' s n).Pairwise (fun a b => a < b) := by
  intro n
  induction n with
  | zero => intro s; simp
  | succ n ih =>
    intro s
    rw [List.range'_succ]
    refine List.pairwise_cons.mpr ⟨?_, ih (s + 1)⟩
    intro b hb
    obtain ⟨i, -, hi⟩ := List.mem_range'.mp hb
    omega

/-- Gluing two consecutive identifier blocks. -/
theorem range'_glue {s : Nat} {l1 l2 : List Nat}
    (h1 : l1 = List.range' (s + 1) l1.length)
    (h2 : l2 = List.range' (s + l1.length + 1) l2.length) :
    l1 ++ l2 = List.range' (s + 1) (l1 ++ l2).length := by
  rw [List.length_append]
  conv_lhs => rw [h1, h2]
  rw [show s + l1.length + 1 = (s + 1) + l1.length from by omega]
  rw [List.range'_append_1]
  rw [show l2.length + l1.length = l1.length + l2.length from by omega]

theorem applyValueId_ids (mask : Bool) (text : List Char) (ctr : Nat) :
    (applyValueId mask text ctr).ids =
      List.range' (ctr + 1) (applyValueId mask text ctr).ids.length ∧
    (applyValueId mask text ctr).ctr = ctr + (applyValueId mask text ctr).ids.length :=
  applyValueIdAux_ids text.length text (le_refl _) ctr mask

/-- The value identifiers a row's token loop emits are the consecutive block
after the incoming counter, which advances by their number. -/
theorem processRowTokens_ids (xTol : ℚ) (mask : Bool) (baselines : List ℚ) :
    ∀ (ws : List Token) (valCtr : Nat),
      (processRowTokens xTol mask baselines valCtr ws).valIds =
        List.range' (valCtr + 1)
          (processRowTokens xTol mask baselines valCtr ws).valIds.length ∧
      (processRowTokens xTol mask baselines valCtr ws).valCtr =
        valCtr + (processRowTokens xTol mask baselines valCtr ws).valIds.length := by
  intro ws
  induction ws with
  | nil => intro valCtr; simp [processRowTokens]
  | cons w ws ih =>
    intro valCtr
    obtain ⟨ht1, ht2⟩ := applyValueId_ids mask w.text valCtr
    obtain ⟨hr1, hr2⟩ := ih (applyValueId mask w.text valCtr).ctr
    rw [processRowTokens]
    dsimp only
    constructor
    · refine range'_glue ht1 ?_
      rw [← ht2]
      exact hr1
    · rw [List.length_append]
      omega

/-- Row ids and value ids emitted by the row loop are each the consecutive
block after the respective incoming counter. -/
theorem processRows_ids (xTol : ℚ) (mask : Bool) (baselines : List ℚ) :
    ∀ (rows : List (List Token)) (rowCtr valCtr : Nat),
      (processRows xTol mask baselines rowCtr valCtr rows).rowIds =
        List.range' (rowCtr + 1)
          (processRows xTol mask baselines rowCtr valCtr rows).rowIds.length ∧
      (processRows xTol mask baselines rowCtr valCtr rows).rowCtr =
        rowCtr + (processRows xTol mask baselines rowCtr valCtr rows).rowIds.length ∧
      (processRows xTol mask baselines rowCtr valCtr rows).valIds =
        List.range' (valCtr + 1)
          (processRows xTol mask baselines rowCtr valCtr rows).valIds.length ∧
      (processRows xTol mask baselines rowCtr valCtr rows).valCtr =
        valCtr + (processRows xTol mask baselines rowCtr valCtr rows).valIds.length := by
  intro rows
  induction rows with
  | nil => intro rowCtr valCtr; simp [processRows]
  | cons row rest ih =>
    intro rowCtr valCtr
    match row with
    | [] =>
      rw [processRows]
      exact ih rowCtr valCtr
    | w0 :: ws =>
      obtain ⟨ht1, ht2⟩ := processRowTokens_ids xTol mask baselines (w0 :: ws) valCtr
      obtain ⟨h1, h2, h3, h4⟩ :=
        ih (rowCtr + 1) (processRowTokens xTol mask baselines valCtr (w0 :: ws)).valCtr
      rw [processRows]
      dsimp only
      refine ⟨?_, ?_, ?_, ?_⟩
      · rw [List.length_cons, List.range'_succ]
        exact congrArg _ h1
      · rw [List.length_cons]; omega
      · refine range'_glue ht1 ?_
        rw [← ht2]
        exact h3
      · rw [List.length_append]
        omega

theorem generatePageStream_baselines (xTol yTol : ℚ) (mask : Bool) (words : List Token)
    (rowCtr valCtr : Nat) :
    (generatePageStream xTol yTol mask words rowCtr valCtr).baselines =
      clusterCoordinates xTol ((groupRows yTol words).flatten.map Token.x0) := rfl

theorem generatePageStream_ids (xTol yTol : ℚ) (mask : Bool) (words : List Token)
    (rowCtr valCtr : Nat) :
    (generatePageStream xTol yTol mask words rowCtr valCtr).rowIds =
      (processRows xTol mask
        (clusterCoordinates xTol ((groupRows yTol words).flatten.map Token.x0))
        rowCtr valCtr (groupRows yTol words)).rowIds ∧
    (generatePageStream xTol yTol mask words rowCtr valCtr).rowCtr =
      (processRows xTol mask
        (clusterCoordinates xTol ((groupRows yTol words).flatten.map Token.x0))
        rowCtr valCtr (groupRows yTol words)).rowCtr ∧
    (generatePageStream xTol yTol mask words rowCtr valCtr).valIds =
      (processRows xTol mask
        (clusterCoordinates xTol ((groupRows yTol words).flatten.map Token.x0))
        rowCtr valCtr (groupRows yTol words)).valIds ∧
    (generatePageStream xTol yTol mask words rowCtr valCtr).valCtr =
      (processRows xTol mask
        (clusterCoordinates xTol ((groupRows yTol words).flatten.map Token.x0))
        rowCtr valCtr (groupRows yTol words)).valCtr :=
  ⟨rfl, rfl, rfl, rfl⟩

/-- Row ids and value ids emitted over a run of pages are each the
consecutive block after the respective incoming counter. -/
theorem processPages_ids (xTol yTol : ℚ) (mask : Bool) :
    ∀ (pages : List (List Token)) (i rowCtr valCtr : Nat),
      (processPages xTol yTol mask i rowCtr valCtr pages).rowIds =
        List.range' (rowCtr + 1)
          (processPages xTol yTol mask i rowCtr valCtr pages).rowIds.length ∧
      (processPages xTol yTol mask i rowCtr valCtr pages).rowCtr =
        rowCtr + (processPages xTol yTol mask i rowCtr valCtr pages).rowIds.length ∧
      (processPages xTol yTol mask i rowCtr valCtr pages).valIds =
        List.range' (valCtr + 1)
          (processPages xTol yTol mask i rowCtr valCtr pages).valIds.length ∧
      (processPages xTol yTol mask i rowCtr valCtr pages).valCtr =
        valCtr + (processPages xTol yTol mask i rowCtr valCtr pages).valIds.length := by
  intro pages
  induction pages with
  | nil => intro i rowCtr valCtr; simp [processPages]
  | cons page rest ih =>
    intro i rowCtr valCtr
    match page with
    | [] =>
      rw [processPages]
      exact ih (i + 1) rowCtr valCtr
    | w :: ws =>
      obtain ⟨hg1, hg2, hg3, hg4⟩ := generatePageStream_ids xTol yTol mask (w :: ws) rowCtr valCtr
      obtain ⟨hp1, hp2, hp3, hp4⟩ := processRows_ids xTol mask
        (clusterCoordinates xTol ((groupRows yTol (w :: ws)).flatten.map Token.x0))
        (groupRows yTol (w :: ws)) rowCtr valCtr
      obtain ⟨h1, h2, h3, h4⟩ := ih (i + 1)
        (generatePageStream xTol yTol mask (w :: ws) rowCtr valCtr).rowCtr
        (generatePageStream xTol yTol mask (w :: ws) rowCtr valCtr).valCtr
      rw [processPages]
      dsimp only
      refine ⟨?_, ?_, ?_, ?_⟩
      · refine range'_glue (hg1.trans hp1) ?_
        rw [show rowCtr +
              (generatePageStream xTol yTol mask (w :: ws) rowCtr valCtr).rowIds.length + 1 =
            (generatePageStream xTol yTol mask (w :: ws) rowCtr valCtr).rowCtr + 1 from by
          rw [hg2, hg1, hp2]]
        exact h1
      · have hKey : (generatePageStream xTol yTol mask (w :: ws) rowCtr valCtr).rowCtr =
            rowCtr + (generatePageStream xTol yTol mask (w :: ws) rowCtr valCtr).rowIds.length := by
          rw [hg2, hp2, hg1]
        rw [List.length_append, h2, hKey]
        omega
      · refine range'_glue (hg3.trans hp3) ?_
        rw [show valCtr +
              (generatePageStream xTol yTol mask (w :: ws) rowCtr valCtr).valIds.length + 1 =
            (generatePageStream xTol yTol mask (w :: ws) rowCtr valCtr).valCtr + 1 from by
          rw [hg4, hg3, hp4]]
        exact h3
      · have hKey : (generatePageStream xTol yTol mask (w :: ws) rowCtr valCtr).valCtr =
            valCtr + (generatePageStream xTol yTol mask (w :: ws) rowCtr valCtr).valIds.length := by
          rw [hg4, hp4, hg3]
        rw [List.length_append, h4, hKey]
        omega

/-- The page numbers appearing in emitted headers are exactly `index + 1`
for the pages whose word list is non-empty, and there is exactly one output
block per emitted header. -/
theorem processPages_pageNums (xTol yTol : ℚ) (mask : Bool) :
    ∀ (pages : List (List Token)) (i rowCtr valCtr : Nat),
      (processPages xTol yTol mask i rowCtr valCtr pages).pageNums =
        ((List.enumFrom i pages).filter fun q => !q.2.isEmpty).map (fun q => q.1 + 1) ∧
      (processPages xTol yTol mask i rowCtr valCtr pages).blocks.length =
        (processPages xTol yTol mask i rowCtr valCtr pages).pageNums.length := by
  intro pages
  induction pages with
  | nil => intro i rowCtr valCtr; simp [processPages]
  | cons page rest ih =>
    intro i rowCtr valCtr
    match page with
    | [] =>
      rw [processPages]
      obtain ⟨h1, h2⟩ := ih (i + 1) rowCtr valCtr
      refine ⟨?_, h2⟩
      rw [h1]
      simp [List.enumFrom_cons]
    | w :: ws =>
      rw [processPages]
      dsimp only
      obtain ⟨h1, h2⟩ := ih (i + 1)
        (generatePageStream xTol yTol mask (w :: ws) rowCtr valCtr).rowCtr
        (generatePageStream xTol yTol mask (w :: ws) rowCtr valCtr).valCtr
      refine ⟨?_, ?_⟩
      · rw [h1]
        simp [List.enumFrom_cons]
      · simp only [List.length_cons]
        omega

theorem groupRows_flatten_perm (yTol : ℚ) (words : List Token) :
    (groupRows yTol words).flatten.Perm words := by
  rw [groupRows]
  match hs : sortByTopX0 words with
  | [] =>
    have hperm := sortByTopX0_perm words
    rw [hs] at hperm
    have : words = [] := hperm.symm.eq_nil
    subst this
    simp
  | w :: ws =>
    have hperm := sortByTopX0_perm words
    rw [hs] at hperm
    exact (groupRowsAux_flatten_perm yTol (w :: ws) w.top []).trans hperm

theorem groupRows_dropLast_sorted (yTol : ℚ) (words : List Token) :
    ∀ row ∈ (groupRows yTol words).dropLast, row.Pairwise leX0 := by
  intro row hrow
  rw [groupRows] at hrow
  match hs : sortByTopX0 words with
  | [] => rw [hs] at hrow; simp at hrow
  | w :: ws =>
    rw [hs] at hrow
    exact groupRowsAux_dropLast_sorted yTol (w :: ws) w.top [] row hrow

/-! ## Claim theorems -/

/-- Claim C1, counterexample: for the two tokens `a` (x0 = 10, top = 0) and
`b` (x0 = 5, top = 5) and yTolerance 11 ≥ 0, row grouping produces the single
row `[a, b]`, whose tokens are NOT in non-decreasing `x0` order (10 > 5):
the final row is appended without the `x0` re-sort that every earlier row
receives. -/
theorem c1_counterexample :
    groupRows 11 [⟨['a'], 10, 0⟩, ⟨['b'], 5, 5⟩] =
      [[⟨['a'], 10, 0⟩, ⟨['b'], 5, 5⟩]] ∧
    ¬ List.Pairwise leX0 [(⟨['a'], 10, 0⟩ : Token), ⟨['b'], 5, 5⟩] := by
  constructor
  · norm_num [groupRows, groupRowsAux, sortByTopX0, List.insertionSort,
      List.orderedInsert, leTopX0]
  · intro hpw
    have := (List.pairwise_cons.mp hpw).1 ⟨['b'], 5, 5⟩ (List.mem_singleton.mpr rfl)
    rw [leX0] at this
    norm_num at this

/-- Claim C1 (amended): for every non-empty token list and yTolerance ≥ 0,
row grouping partitions the input — the concatenation of the produced rows
is a permutation of the input token multiset — and every produced row
EXCEPT THE LAST is in non-decreasing `x0` order; the final row is emitted in
`(top, x0)`-sorted acceptance order, which can violate `x0` order. -/
theorem c1_partition_rows (yTol : ℚ) (words : List Token)
    (hne : words ≠ []) (hy : 0 ≤ yTol) :
    (groupRows yTol words).flatten.Perm words ∧
    ∀ row ∈ (groupRows yTol words).dropLast, row.Pairwise leX0 :=
  ⟨groupRows_flatten_perm yTol words, groupRows_dropLast_sorted yTol words⟩

/-- Claim C1, witness: the amended theorem applied to the one-token page
`[⟨a, 1, 0⟩]` with yTolerance 0. -/
theorem c1_witness :
    (groupRows 0 [⟨['a'], 1, 0⟩]).flatten.Perm [⟨['a'], 1, 0⟩] :=
  (c1_partition_rows 0 [⟨['a'], 1, 0⟩] (by simp) (le_refl 0)).1

/-- Claim C3: `_get_col_index` returns the 1-based index of the first
baseline within xTolerance of `x` (first-match, not nearest-match), returns
1 when no baseline qualifies, always lands in `[1, len]` for non-empty
baseline lists, and returns 1 on the empty baseline list. -/
theorem c3_colindex (xTol x : ℚ) (bs : List ℚ) :
    (∀ (k : Nat) (hk : k < bs.length), |x - bs.get ⟨k, hk⟩| ≤ xTol →
      (∀ (j : Nat) (hj : j < bs.length), j < k → xTol < |x - bs.get ⟨j, hj⟩|) →
      getColIndex xTol x bs = k + 1) ∧
    ((∀ b ∈ bs, xTol < |x - b|) → getColIndex xTol x bs = 1) ∧
    (bs ≠ [] → 1 ≤ getColIndex xTol x bs ∧ getColIndex xTol x bs ≤ bs.length) ∧
    (bs = [] → getColIndex xTol x bs = 1) := by
  refine ⟨?_, ?_, ?_, ?_⟩
  · intro k hk hget hbefore
    rw [getColIndex, getColIndexAux_first xTol x bs k hk 0 hget hbefore]
    omega
  · intro hall
    rw [getColIndex, getColIndexAux_no_match xTol x bs 0 hall]
  · intro hne
    have hlen : 1 ≤ bs.length := List.length_pos.mpr hne
    rcases getColIndexAux_bounds xTol x bs 0 with h | ⟨h1, h2⟩
    · rw [getColIndex, h]; omega
    · rw [getColIndex]; omega
  · intro he
    subst he
    rfl

/-- Claim C3, witness: with xTolerance 1 and baselines `[5, 0]`, the point
`x = 0` misses baseline 5 and first matches baseline 0, so column 2. -/
theorem c3_witness : getColIndex 1 0 [5, 0] = 2 := by
  refine (c3_colindex 1 0 [5, 0]).1 1 (by norm_num) ?_ ?_
  · show |(0 : ℚ) - 0| ≤ 1
    norm_num
  · intro j hj hjlt
    have hj0 : j = 0 := by omega
    subst hj0
    show (1 : ℚ) < |0 - 5|
    norm_num

/-- Claim C4: `_cluster_coordinates` yields a sequence in which every
adjacent pair of baselines differs by more than xTolerance (hence strictly
increasing for xTolerance ≥ 0), of length at most the number of distinct
input coordinates; an all-identical input yields exactly the one baseline,
and empty input yields the empty sequence. -/
theorem c4_cluster (xTol : ℚ) (hx : 0 ≤ xTol) (coords : List ℚ) :
    List.Chain' (fun a b => a + xTol < b) (clusterCoordinates xTol coords) ∧
    (clusterCoordinates xTol coords).Pairwise (fun a b : ℚ => a < b) ∧
    (clusterCoordinates xTol coords).length ≤ coords.dedup.length ∧
    (∀ a : ℚ, coords ≠ [] → (∀ c ∈ coords, c = a) →
      clusterCoordinates xTol coords = [a]) ∧
    (coords = [] → clusterCoordinates xTol coords = []) := by
  refine ⟨clusterCoordinates_chain xTol coords,
    clusterCoordinates_pairwise_lt xTol hx coords, ?_, ?_, ?_⟩
  · have hnodup : (clusterCoordinates xTol coords).Nodup :=
      (clusterCoordinates_pairwise_lt xTol hx coords).imp ne_of_lt
    have hsub : clusterCoordinates xTol coords ⊆ coords.dedup := by
      intro b hb
      exact List.mem_dedup.mpr (clusterCoordinates_subset xTol coords b hb)
    exact (List.subperm_of_subset hnodup hsub).length_le
  · intro a hne hall
    rw [clusterCoordinates]
    have hperm := sortQ_perm coords
    match hs : List.insertionSort (fun a b : ℚ => a ≤ b) coords with
    | [] =>
      rw [hs] at hperm
      exact absurd hperm.symm.eq_nil hne
    | c :: cs =>
      rw [hs] at hperm
      have hc : c = a := hall c (hperm.mem_iff.mp (List.mem_cons_self c cs))
      have hcs : ∀ x ∈ cs, x = a :=
        fun x hx' => hall x (hperm.mem_iff.mp (List.mem_cons_of_mem c hx'))
      show c :: clusterAux xTol c cs = [a]
      rw [hc, clusterAux_const xTol hx a cs hcs]
  · intro he
    subst he
    rfl

/-- Claim C4, witness: the theorem applied at xTolerance 1 and coordinates
`[1, 1, 3]`. -/
theorem c4_witness :
    (clusterCoordinates 1 [1, 1, 3]).Pairwise (fun a b : ℚ => a < b) :=
  (c4_cluster 1 (by norm_num) [1, 1, 3]).2.1

/-- Claim C5: within one `process_pdf` run the emitted row ids are exactly
`1, 2, 3, …` in emission order and the emitted value ids are exactly
`1, 2, 3, …` in emission order — both distinct, strictly increasing, and
restarting from zero counters regardless of the counters' previous values. -/
theorem c5_run_identifiers (xTol yTol : ℚ) (mask : Bool) (rowCtr0 valCtr0 : Nat)
    (pages : List (List Token)) :
    (processPdf xTol yTol mask rowCtr0 valCtr0 pages).rowIds =
      List.range' 1 (processPdf xTol yTol mask rowCtr0 valCtr0 pages).rowIds.length ∧
    (processPdf xTol yTol mask rowCtr0 valCtr0 pages).valIds =
      List.range' 1 (processPdf xTol yTol mask rowCtr0 valCtr0 pages).valIds.length ∧
    (processPdf xTol yTol mask rowCtr0 valCtr0 pages).rowIds.Pairwise
      (fun a b => a < b) ∧
    (processPdf xTol yTol mask rowCtr0 valCtr0 pages).valIds.Pairwise
      (fun a b => a < b) := by
  obtain ⟨h1, -, h3, -⟩ := processPages_ids xTol yTol mask pages 0 0 0
  refine ⟨h1, h3, ?_, ?_⟩
  · rw [show (processPdf xTol yTol mask rowCtr0 valCtr0 pages).rowIds =
        (processPages xTol yTol mask 0 0 0 pages).rowIds from rfl, h1]
    exact range'_pairwise_lt _ _
  · rw [show (processPdf xTol yTol mask rowCtr0 valCtr0 pages).valIds =
        (processPages xTol yTol mask 0 0 0 pages).valIds from rfl, h3]
    exact range'_pairwise_lt _ _

/-- Claim C6: `_apply_value_id` with masking on and with masking off assigns
the identical identifier sequence, advances the value counter by the same
amount, and records the same payload spans; the flag changes only the
rendered text. -/
theorem c6_mask_independence (text : List Char) (ctr : Nat) :
    (applyValueId true text ctr).ctr = (applyValueId false text ctr).ctr ∧
    (applyValueId true text ctr).ids = (applyValueId false text ctr).ids ∧
    (applyValueId true text ctr).payloads = (applyValueId false text ctr).payloads :=
  applyValueIdAux_mask_inv text.length text (le_refl _) ctr true

/-- Claim C7, counterexample (negation of the claimed existential): there is
NO tolerance, token list and produced row in which some member's `top`
differs from the row's first member's `top` by more than yTolerance — the
reference `last_y` is the row opener's `top`, so drift is bounded by
yTolerance, not `(rowMemberCount − 1) × yTolerance`. -/
theorem c7_counterexample :
    ¬ ∃ (yTol : ℚ) (words row : List Token) (w h : Token),
        0 < yTol ∧ row ∈ groupRows yTol words ∧ w ∈ row ∧
        row.head? = some h ∧ yTol < |w.top - h.top| := by
  rintro ⟨yTol, words, row, w, h, hy, hrow, hw, hhead, hcl⟩
  have hh : h ∈ row := List.mem_of_mem_head? (Option.mem_def.mpr hhead)
  have := groupRows_top_close yTol (le_of_lt hy) words row hrow w h hw hh
  linarith

/-- Claim C7 (amended): for every yTolerance ≥ 0, every member of a produced
row has `top` within yTolerance of the row's first member's `top`: the
worst-case accumulated drift is yTolerance, not
`(rowMemberCount − 1) × yTolerance`. -/
theorem c7_drift_bound (yTol : ℚ) (hy : 0 ≤ yTol) (words : List Token)
    (row : List Token) (hrow : row ∈ groupRows yTol words) (w h : Token)
    (hw : w ∈ row) (hh : row.head? = some h) : |w.top - h.top| ≤ yTol :=
  groupRows_top_close yTol hy words row hrow w h hw
    (List.mem_of_mem_head? (Option.mem_def.mpr hh))

/-- Claim C8: an empty page contributes no header and no output block, and
the emitted headers of the other pages report exactly their 1-based position
in the document (one block per emitted header). -/
theorem c8_empty_pages (xTol yTol : ℚ) (mask : Bool) (rowCtr0 valCtr0 : Nat)
    (pages : List (List Token)) :
    (processPdf xTol yTol mask rowCtr0 valCtr0 pages).pageNums =
      ((pages.enum).filter fun q => !q.2.isEmpty).map (fun q => q.1 + 1) ∧
    (processPdf xTol yTol mask rowCtr0 valCtr0 pages).blocks.length =
      (processPdf xTol yTol mask rowCtr0 valCtr0 pages).pageNums.length :=
  processPages_pageNums xTol yTol mask pages 0 0 0

theorem applyValueIdAux_nil (mask : Bool) (ctr : Nat) :
    applyValueIdAux mask [] ctr = ⟨[], ctr, [], []⟩ := by
  rw [applyValueIdAux]

theorem takeWhile_append_all (p : Char → Bool) :
    ∀ (xs ys : List Char), (∀ x ∈ xs, p x = true) →
      List.takeWhile p (xs ++ ys) = xs ++ List.takeWhile p ys := by
  intro xs
  induction xs with
  | nil => intro ys _; simp
  | cons x xs ih =>
    intro ys hall
    rw [List.cons_append, List.takeWhile_cons_of_pos (hall x (List.mem_cons_self x xs)),
      ih ys (fun d hd => hall d (List.mem_cons_of_mem x hd)), List.cons_append]

theorem dropWhile_append_all (p : Char → Bool) :
    ∀ (xs ys : List Char), (∀ x ∈ xs, p x = true) →
      List.dropWhile p (xs ++ ys) = List.dropWhile p ys := by
  intro xs
  induction xs with
  | nil => intro ys _; simp
  | cons x xs ih =>
    intro ys hall
    rw [List.cons_append, List.dropWhile_cons_of_pos (hall x (List.mem_cons_self x xs)),
      ih ys (fun d hd => hall d (List.mem_cons_of_mem x hd))]

/-- Claim C2, counterexample: on the token text `"(567)"` the pipeline does
NOT produce a `-567` payload: `_apply_value_id` runs on the raw text, parens
are kept verbatim, the interior numeral is tagged as `567`.  (No
parenthesized-negative normalization exists in the code; `_normalize_text`
only strips ASCII commas and is never called.) -/
theorem c2_counterexample :
    (applyValueId false "(567)".data 0).out = "(<v_001:567>)".data ∧
    (applyValueId false "(567)".data 0).payloads = ["567".data] ∧
    "567".data ≠ "-567".data := by
  have h : applyValueId false "(567)".data 0 =
      ⟨"(<v_001:567>)".data, 1, [1], ["567".data]⟩ := by
    simp +decide [applyValueId, applyValueIdAux_cons, applyValueIdAux, matchAt, stripCommas,
      valueMarker, pad3, natChars, List.takeWhile_cons, List.dropWhile_cons, Nat.repr,
      Nat.toDigits, Nat.toDigitsCore, Nat.digitChar, String.data]
  exact ⟨by rw [h], by rw [h], by decide⟩

/-- Claim C2 (amended): for every token text that is a fully parenthesized
(possibly decimal) numeral `( ds )`, `_apply_value_id` keeps both
parentheses verbatim and tags only the interior numeral, emitting
`(<v_NNN:ds>)` with the UN-negated payload `ds` (masked to `x`s when
masking is on); no minus sign is ever introduced. -/
theorem c2_paren_not_negated (mask : Bool) (ctr : Nat) (ds : List Char)
    (hne : ds ≠ [])
    (hds : ∀ c ∈ ds, (0x30 ≤ c.toNat ∧ c.toNat ≤ 0x39) ∨ c = '.') :
    applyValueId mask ('(' :: (ds ++ [')'])) ctr =
      ⟨'(' :: (valueMarker (ctr + 1) (if mask then maskText ds else ds) ++ [')']),
       ctr + 1, [ctr + 1], [ds]⟩ := by
  have hnum : ∀ c ∈ ds, isNumChar c = true := by
    intro c hc
    rcases hds c hc with ⟨h1, h2⟩ | h3
    · simp only [isNumChar, Bool.or_eq_true, Bool.and_eq_true, decide_eq_true_eq]
      exact Or.inl (Or.inl (Or.inl (Or.inl (Or.inl ⟨h1, h2⟩))))
    · subst h3; decide
  have hstrip : stripCommas ds = ds := by
    rw [stripCommas, List.filter_eq_self]
    intro c hc
    rcases hds c hc with ⟨h1, h2⟩ | h3
    · have hc1 : c ≠ ',' := by intro he; subst he; exact absurd h1 (by decide)
      have hc2 : c ≠ '，' := by intro he; subst he; exact absurd h2 (by decide)
      simp [hc1, hc2]
    · subst h3; decide
  obtain ⟨d, ds', rfl⟩ := List.exists_cons_of_ne_nil hne
  have hm1 : matchAt ('(' :: ((d :: ds') ++ [')'])) = none := by
    rw [matchAt.eq_def]
    dsimp only
    rw [if_neg (by decide), if_neg (by decide)]
  have hm2 : matchAt (d :: (ds' ++ [')'])) = some (d :: ds', [')']) := by
    rw [matchAt.eq_def]
    dsimp only
    rw [if_pos (hnum d (List.mem_cons_self d ds'))]
    rw [← List.cons_append]
    rw [takeWhile_append_all isNumChar (d :: ds') [')'] hnum,
      dropWhile_append_all isNumChar (d :: ds') [')'] hnum]
    rw [show List.takeWhile isNumChar [')'] = [] from rfl,
      show List.dropWhile isNumChar [')'] = [')'] from rfl]
    rw [if_neg (by decide)]
    rw [List.append_nil]
  have hm3 : applyValueIdAux mask [')'] (ctr + 1) = ⟨[')'], ctr + 1, [], []⟩ := by
    rw [applyValueIdAux_cons, show matchAt [')'] = none from by decide]
    dsimp only
    rw [applyValueIdAux_nil]
  rw [applyValueId, applyValueIdAux_cons, hm1]
  dsimp only
  rw [List.cons_append, applyValueIdAux_cons, hm2]
  dsimp only
  rw [hm3, hstrip]

/-- Claim C2, witness: the amended theorem applied to the interior numeral
`567` with masking off and counter 0. -/
theorem c2_witness :
    applyValueId false ('(' :: (['5', '6', '7'] ++ [')'])) 0 =
      ⟨'(' :: (valueMarker 1
          (if false then maskText ['5', '6', '7'] else ['5', '6', '7']) ++ [')']),
       1, [1], [['5', '6', '7']]⟩ :=
  c2_paren_not_negated false 0 ['5', '6', '7'] (by simp) (by decide)

/-- Claim C7, witness to the amended theorem: a singleton page at
yTolerance 1, whose only row member is its own reference. -/
theorem c7_witness :
    |(⟨['a'], 0, 0⟩ : Token).top - (⟨['a'], 0, 0⟩ : Token).top| ≤ (1 : ℚ) := by
  have hg : groupRows 1 [⟨['a'], 0, 0⟩] = [[⟨['a'], 0, 0⟩]] := by
    norm_num [groupRows, groupRowsAux, sortByTopX0, List.insertionSort,
      List.orderedInsert, leTopX0]
  refine c7_drift_bound 1 (by norm_num) [⟨['a'], 0, 0⟩] [⟨['a'], 0, 0⟩] ?_
    ⟨['a'], 0, 0⟩ ⟨['a'], 0, 0⟩ (by simp) (by simp)
  rw [hg]
  simp

/-- Claim C9: in the per-page pipeline the fallback branch of
`_get_col_index` is unreachable — the baselines are clustered from exactly
the page's token x-origins, so every token's `x0` is within xTolerance of
some baseline, and the column lookup returns through a qualifying baseline
(first match), never through the fallback. -/
theorem c9_fallback_unreachable (xTol yTol : ℚ) (mask : Bool) (rowCtr valCtr : Nat)
    (hx : 0 ≤ xTol) (words : List Token) (w : Token) (hw : w ∈ words) :
    ∃ k b,
      getColIndex xTol w.x0
          (generatePageStream xTol yTol mask words rowCtr valCtr).baselines = k + 1 ∧
      (generatePageStream xTol yTol mask words rowCtr valCtr).baselines[k]? = some b ∧
      |w.x0 - b| ≤ xTol := by
  rw [generatePageStream_baselines]
  have hmem : w.x0 ∈ (groupRows yTol words).flatten.map Token.x0 :=
    List.mem_map_of_mem Token.x0 ((groupRows_flatten_perm yTol words).mem_iff.mpr hw)
  obtain ⟨b, hb, hcl⟩ := clusterCoordinates_covers xTol hx
    ((groupRows yTol words).flatten.map Token.x0) w.x0 hmem
  obtain ⟨k, hk, heq, hget⟩ := getColIndexAux_finds xTol w.x0
    (clusterCoordinates xTol ((groupRows yTol words).flatten.map Token.x0)) 0 ⟨b, hb, hcl⟩
  refine ⟨k, _, ?_, ?_, hget⟩
  · rw [getColIndex, heq]
    omega
  · rw [List.getElem?_eq_getElem hk, List.get_eq_getElem]

/-- Claim C9, witness: the theorem applied to a concrete one-token page. -/
theorem c9_witness :
    ∃ k b,
      getColIndex 20 (⟨['a'], 3, 7⟩ : Token).x0
          (generatePageStream 20 5 false [⟨['a'], 3, 7⟩] 0 0).baselines = k + 1 ∧
      (generatePageStream 20 5 false [⟨['a'], 3, 7⟩] 0 0).baselines[k]? = some b ∧
      |(⟨['a'], 3, 7⟩ : Token).x0 - b| ≤ 20 :=
  c9_fallback_unreachable 20 5 false 0 0 (by norm_num) [⟨['a'], 3, 7⟩]
    ⟨['a'], 3, 7⟩ (by simp)

/-- Claim C10: the numeric pattern fires on digit-free separator runs — on
`"hello, world"` the lone comma is tagged, consumes value id 1, and since
commas are stripped from the payload the emitted marker is `<v_001:>` with
an empty payload. -/
theorem c10_digitless_match :
    applyValueId false "hello, world".data 0 =
      ⟨"hello<v_001:> world".data, 1, [1], [[]]⟩ := by
  simp +decide [applyValueId, applyValueIdAux_cons, applyValueIdAux, matchAt, stripCommas,
    valueMarker, pad3, natChars, List.takeWhile_cons, List.dropWhile_cons, Nat.repr,
    Nat.toDigits, Nat.toDigitsCore, Nat.digitChar, String.data]

end PdfFlow
